import Mathlib

/-!
Verification of the core logic of the jsonviewer repository against its
specification.  The TypeScript source is shallowly embedded in Lean:

* `JsonTree.tsx` — `JSONValue`, `collectMatches`, and the path construction
  of the `JsonNode`/`JsonTree` renderer;
* `JsonCodeEditor.tsx` — `jsonLinter`, `findErrorPosition`,
  `jsonCompletionSource`, `isInsideString`, `extractExistingKeys`;
* `page.tsx` — the derived `parsed` / `error` state and `formatJson`.

Modelling conventions:

* JavaScript strings are modelled as `String` / `List Char`; positions are
  code-unit indices modelled as character indices.
* JavaScript numbers inside parsed JSON values are modelled as `Int`
  (`String(n)` agrees with `toString (n : Int)` on this domain).
* `JSON.parse` is an external built-in; its outcome on a document is an
  oracle (`ParseOutcome`): either a parsed value or a `SyntaxError` whose
  `message` is an arbitrary string.  `JSON.parse` throws only `SyntaxError`,
  so the `instanceof SyntaxError` test of `jsonLinter` always succeeds on
  failures.
* a JS string is falsy exactly when it is empty, so `!s.trim()` tests that
  `s` consists of whitespace only; this is `jsBlank`.
* a computation that lets a JavaScript exception escape is modelled by an
  `Option`-valued function returning `none`.
-/

namespace JsonViewer

/-- Whitespace as used by `trim` and `\s` (the common ASCII subset). -/
def isJsSpace (c : Char) : Bool :=
  c = ' ' ∨ c = '\t' ∨ c = '\n' ∨ c = '\r' ∨ c = '\x0b' ∨ c = '\x0c'

/-- JS `\w` word characters: ASCII letters, digits and underscore. -/
def isWordChar (c : Char) : Bool :=
  c.isAlphanum ∨ c = '_'

/-- `!s.trim()` is truthy iff `s` is empty or whitespace-only. -/
def jsBlank (s : String) : Bool :=
  s.data.all isJsSpace

/-- JS `hay.includes(needle)`: `needle` occurs as a contiguous substring. -/
def hasSub (needle : List Char) : List Char → Bool
  | [] => needle.isEmpty
  | c :: t => needle.isPrefixOf (c :: t) || hasSub needle t

/-- ASCII lower-casing of one character. -/
def lowerChar (c : Char) : Char :=
  if 'A' ≤ c ∧ c ≤ 'Z' then Char.ofNat (c.toNat + 32) else c

/-- `String.toLowerCase` (ASCII, matching the embedding's character model). -/
def jsLower (s : String) : String :=
  String.mk (s.data.map lowerChar)

/-- The tagged union of JSON values (`JSONValue` of `JsonTree.tsx`).
Object fields keep insertion order. -/
inductive JSONValue where
  | str (s : String)
  | num (n : Int)
  | bool (b : Bool)
  | null
  | obj (fields : List (String × JSONValue))
  | arr (items : List JSONValue)

/-- JS `String(val)` for the scalar values that `collectMatches` stringifies
(the code never stringifies objects or arrays).  Containers are mapped to
`""`; no embedded function applies this to a container. -/
def scalarString : JSONValue → String
  | .str s => s
  | .num n => toString n
  | .bool b => if b then "true" else "false"
  | .null => "null"
  | .obj _ => ""
  | .arr _ => ""

/-- The `valueMatches` helper inside `collectMatches` (JsonTree.tsx:45-52).
`!val || typeof val !== "object"` holds exactly on the four scalar shapes
(`null` is falsy; strings, numbers and booleans have non-"object" typeof),
so scalars also compare their stringified value, containers only the label. -/
def valueMatches (searchLower : String) (val : JSONValue) (label : String) : Bool :=
  let labelMatch := hasSub searchLower.data (jsLower label).data
  match val with
  | .obj _ => labelMatch
  | .arr _ => labelMatch
  | v => labelMatch || hasSub searchLower.data (jsLower (scalarString v)).data

mutual

/-- `collectMatches` (JsonTree.tsx:33-78).  The object branch builds the
child path from `rootLabel` when `currentPath` is empty; the array branch
always uses `currentPath` alone. -/
def collectMatches (value : JSONValue) (filter : String) (rootLabel : String)
    (currentPath : String) : List String :=
  if jsBlank filter then [] else
  match value with
  | .obj fields => collectObjEntries fields filter rootLabel currentPath
  | .arr items => collectArrEntries items filter rootLabel currentPath 0
  | _ => []
termination_by structural value

/-- The `Object.entries(value).forEach` loop of `collectMatches`. -/
def collectObjEntries (fields : List (String × JSONValue)) (filter : String)
    (rootLabel : String) (currentPath : String) : List String :=
  match fields with
  | [] => []
  | (key, child) :: rest =>
    let childPath := if currentPath ≠ "" then currentPath ++ "." ++ key
      else rootLabel ++ "." ++ key
    ((if valueMatches (jsLower filter) child key then [childPath] else []) ++
      collectMatches child filter rootLabel childPath) ++
      collectObjEntries rest filter rootLabel currentPath
termination_by structural fields

/-- The `value.forEach` loop of `collectMatches` for arrays. -/
def collectArrEntries (items : List JSONValue) (filter : String)
    (rootLabel : String) (currentPath : String) (index : Nat) : List String :=
  match items with
  | [] => []
  | child :: rest =>
    let childPath := currentPath ++ "[" ++ toString index ++ "]"
    ((if valueMatches (jsLower filter) child (toString index) then [childPath] else []) ++
      collectMatches child filter rootLabel childPath) ++
      collectArrEntries rest filter rootLabel currentPath (index + 1)
termination_by structural items

end

/-- Child path rule of the tree renderer (`JsonNode`, JsonTree.tsx:222):
`path ? `${path}.${key}` : key`. -/
def rendererObjChildPath (path key : String) : String :=
  if path ≠ "" then path ++ "." ++ key else key

/-- Child path rule of the tree renderer for arrays (JsonTree.tsx:234):
`` `${path}[${index}]` ``. -/
def rendererArrChildPath (path : String) (index : Nat) : String :=
  path ++ "[" ++ toString index ++ "]"

mutual

/-- All strict descendants of a rendered node, in render (pre-)order,
as `(path, label, value)` triples, using the renderer's path rule.
`JsonTree` renders the root with `path = rootLabel`, so the full tree's
node set is the root plus `renderDescendants value rootLabel`. -/
def renderDescendants (value : JSONValue) (path : String) :
    List (String × String × JSONValue) :=
  match value with
  | .obj fields => renderObjDescendants fields path
  | .arr items => renderArrDescendants items path 0
  | _ => []
termination_by structural value

def renderObjDescendants (fields : List (String × JSONValue)) (path : String) :
    List (String × String × JSONValue) :=
  match fields with
  | [] => []
  | (key, child) :: rest =>
    let childPath := rendererObjChildPath path key
    ((childPath, key, child) :: renderDescendants child childPath) ++
      renderObjDescendants rest path
termination_by structural fields

def renderArrDescendants (items : List JSONValue) (path : String) (index : Nat) :
    List (String × String × JSONValue) :=
  match items with
  | [] => []
  | child :: rest =>
    let childPath := rendererArrChildPath path index
    ((childPath, toString index, child) :: renderDescendants child childPath) ++
      renderArrDescendants rest path (index + 1)
termination_by structural items

end

mutual

/-- All strict descendants of a node in pre-order, as `(path, label, value)`
triples, using the match collector's own path rule (object children fall
back to `rootLabel` when `currentPath` is empty, array children never do). -/
def collectDescendants (value : JSONValue) (rootLabel : String)
    (currentPath : String) : List (String × String × JSONValue) :=
  match value with
  | .obj fields => collectObjDescendants fields rootLabel currentPath
  | .arr items => collectArrDescendants items rootLabel currentPath 0
  | _ => []
termination_by structural value

def collectObjDescendants (fields : List (String × JSONValue))
    (rootLabel : String) (currentPath : String) :
    List (String × String × JSONValue) :=
  match fields with
  | [] => []
  | (key, child) :: rest =>
    let childPath := if currentPath ≠ "" then currentPath ++ "." ++ key
      else rootLabel ++ "." ++ key
    ((childPath, key, child) :: collectDescendants child rootLabel childPath) ++
      collectObjDescendants rest rootLabel currentPath
termination_by structural fields

def collectArrDescendants (items : List JSONValue) (rootLabel : String)
    (currentPath : String) (index : Nat) : List (String × String × JSONValue) :=
  match items with
  | [] => []
  | child :: rest =>
    let childPath := currentPath ++ "[" ++ toString index ++ "]"
    ((childPath, toString index, child) :: collectDescendants child rootLabel childPath) ++
      collectArrDescendants rest rootLabel currentPath (index + 1)
termination_by structural items

end

/-- The per-node match predicate applied to a `(path, label, value)` triple. -/
def entryMatches (f : String) (e : String × String × JSONValue) : Bool :=
  valueMatches (jsLower f) e.2.2 e.2.1

mutual

theorem collect_eq_filter (v : JSONValue) (f r p : String) (hf : jsBlank f = false) :
    collectMatches v f r p =
      ((collectDescendants v r p).filter (entryMatches f)).map (·.1) := by
  cases v <;>
    simp only [collectMatches, collectDescendants, hf, Bool.false_eq_true, if_false,
      List.filter_nil, List.map_nil]
  · exact collectObj_eq_filter _ f r p hf
  · exact collectArr_eq_filter _ f r p 0 hf
termination_by structural v

theorem collectObj_eq_filter (fields : List (String × JSONValue)) (f r p : String)
    (hf : jsBlank f = false) :
    collectObjEntries fields f r p =
      ((collectObjDescendants fields r p).filter (entryMatches f)).map (·.1) := by
  match fields with
  | [] => simp [collectObjEntries, collectObjDescendants]
  | (key, child) :: rest =>
    have ih1 := collect_eq_filter child f r
      (if p ≠ "" then p ++ "." ++ key else r ++ "." ++ key) hf
    have ih2 := collectObj_eq_filter rest f r p hf
    simp only [collectObjEntries, collectObjDescendants, ih1, ih2, List.filter_append,
      List.filter_cons, List.map_append, entryMatches]
    by_cases hm : valueMatches (jsLower f) child key = true <;>
      simp [hm]
termination_by structural fields

theorem collectArr_eq_filter (items : List JSONValue) (f r p : String) (i : Nat)
    (hf : jsBlank f = false) :
    collectArrEntries items f r p i =
      ((collectArrDescendants items r p i).filter (entryMatches f)).map (·.1) := by
  match items with
  | [] => simp [collectArrEntries, collectArrDescendants]
  | child :: rest =>
    have ih1 := collect_eq_filter child f r (p ++ "[" ++ toString i ++ "]") hf
    have ih2 := collectArr_eq_filter rest f r p (i + 1) hf
    simp only [collectArrEntries, collectArrDescendants, ih1, ih2, List.filter_append,
      List.filter_cons, List.map_append, entryMatches]
    by_cases hm : valueMatches (jsLower f) child (toString i) = true <;>
      simp [hm]
termination_by structural items

end

/-- C4: `collectMatches` returns the paths of exactly the matching nodes of the
depth-first pre-order enumeration `collectDescendants` (object entries in stored
insertion order, array entries in index order, a node before its descendants),
and on `{"a":1,"b":{"a":2}}` with query `"a"` and root label `"JSON"` it returns
exactly `["JSON.a", "JSON.b.a"]` in that order. -/
theorem collectMatches_is_preorder_filter :
    (∀ (v : JSONValue) (f r p : String), jsBlank f = false →
      collectMatches v f r p =
        ((collectDescendants v r p).filter (entryMatches f)).map (·.1)) ∧
    collectMatches (.obj [("a", .num 1), ("b", .obj [("a", .num 2)])]) "a" "JSON" ""
      = ["JSON.a", "JSON.b.a"] :=
  ⟨fun v f r p hf => collect_eq_filter v f r p hf, by decide⟩

/-- C4 witness: the pre-order filter characterisation instantiated on the
concrete document `{"a":1,"b":{"a":2}}`. -/
theorem collectMatches_is_preorder_filter_witness :
    collectMatches (.obj [("a", .num 1), ("b", .obj [("a", .num 2)])]) "a" "JSON" "" =
      ((collectDescendants (.obj [("a", .num 1), ("b", .obj [("a", .num 2)])]) "JSON" "").filter
          (entryMatches "a")).map (·.1) :=
  collectMatches_is_preorder_filter.1
    (.obj [("a", .num 1), ("b", .obj [("a", .num 2)])]) "a" "JSON" "" (by decide)

/-- C3 counterexample: a scalar root value whose text contains the query is
not reported by `collectMatches` — the root node itself is never examined. -/
theorem collectMatches_scalar_root_not_reported :
    collectMatches (.str "abc") "abc" "JSON" "" = [] := by decide

/-- C3 (amended): for a non-blank query, `collectMatches` reports a path iff
some strict-descendant node at that path matches, where a node matches iff its
key/index label contains the query case-insensitively or, for scalar nodes
only, its stringified value does; container nodes are matched only by label,
and the root node itself (in particular a scalar root) is never examined. -/
theorem collectMatches_enumerates_matching_descendants :
    (∀ (v : JSONValue) (f r path : String), jsBlank f = false →
      (path ∈ collectMatches v f r "" ↔
        ∃ label val, (path, label, val) ∈ collectDescendants v r "" ∧
          valueMatches (jsLower f) val label = true)) ∧
    (∀ (s f r : String), collectMatches (.str s) f r "" = []) ∧
    (∀ (sl : String) (fields : List (String × JSONValue)) (label : String),
      valueMatches sl (.obj fields) label = hasSub sl.data (jsLower label).data) ∧
    (∀ (sl : String) (items : List JSONValue) (label : String),
      valueMatches sl (.arr items) label = hasSub sl.data (jsLower label).data) := by
  refine ⟨fun v f r path hf => ?_, fun s f r => ?_, fun sl fields label => rfl,
    fun sl items label => rfl⟩
  · rw [collect_eq_filter v f r "" hf]
    simp only [List.mem_map, List.mem_filter, entryMatches]
    constructor
    · rintro ⟨⟨p, label, val⟩, ⟨hmem, hmatch⟩, rfl⟩
      exact ⟨label, val, hmem, hmatch⟩
    · rintro ⟨label, val, hmem, hmatch⟩
      exact ⟨(path, label, val), ⟨hmem, hmatch⟩, rfl⟩
  · cases hb : jsBlank f <;> simp [collectMatches, hb]

/-- C3 witness: the membership characterisation instantiated on the concrete
document `{"a":1,"b":{"a":2}}` and path `"JSON.a"`. -/
theorem collectMatches_enumerates_matching_descendants_witness :
    "JSON.a" ∈ collectMatches (.obj [("a", .num 1), ("b", .obj [("a", .num 2)])]) "a" "JSON" "" ↔
      ∃ label val,
        ("JSON.a", label, val) ∈
            collectDescendants (.obj [("a", .num 1), ("b", .obj [("a", .num 2)])]) "JSON" "" ∧
          valueMatches (jsLower "a") val label = true :=
  collectMatches_enumerates_matching_descendants.1
    (.obj [("a", .num 1), ("b", .obj [("a", .num 2)])]) "a" "JSON" "JSON.a" (by decide)

/-- C2: on a top-level array the match collector produces the path `"[0]"`
while the tree renderer computes `"JSON[0]"` for the same node — the
collector's array branch omits the root label when `currentPath` is empty, so
the two path constructions disagree on top-level arrays. -/
theorem collector_renderer_path_divergence :
    collectMatches (.arr [.str "x"]) "x" "JSON" "" = ["[0]"] ∧
    (renderDescendants (.arr [.str "x"]) "JSON").map (·.1) = ["JSON[0]"] ∧
    ("[0]" : String) ≠ "JSON[0]" := by decide

/-- Digit run to number, as `parseInt(_, 10)` on an all-digit string. -/
def digitsToNat (ds : List Char) : Nat :=
  ds.foldl (fun acc c => acc * 10 + (c.toNat - 48)) 0

/-- The literal of the `at position` pattern. -/
def posLiteral : List Char := "at position ".data

/-- Try to match `at position` followed by digits at the head of `l`. -/
def tryPosAt (l : List Char) : Option Nat :=
  if posLiteral.isPrefixOf l then
    let ds := (l.drop posLiteral.length).takeWhile Char.isDigit
    if ds.isEmpty then none else some (digitsToNat ds)
  else none

/-- `message.match` for the position pattern: leftmost match, captured number. -/
def findPosHint : List Char → Option Nat
  | [] => none
  | c :: rest =>
    match tryPosAt (c :: rest) with
    | some n => some n
    | none => findPosHint rest

/-- Try to match `line L column C` at the head of `l`. -/
def tryLineColAt (l : List Char) : Option (Nat × Nat) :=
  if ("line ".data).isPrefixOf l then
    let r1 := l.drop 5
    let d1 := r1.takeWhile Char.isDigit
    if d1.isEmpty then none else
    let r2 := r1.drop d1.length
    if (" column ".data).isPrefixOf r2 then
      let d2 := (r2.drop 8).takeWhile Char.isDigit
      if d2.isEmpty then none else some (digitsToNat d1, digitsToNat d2)
    else none
  else none

/-- `message.match` for the line/column pattern: leftmost match. -/
def findLineColHint : List Char → Option (Nat × Nat)
  | [] => none
  | c :: rest =>
    match tryLineColAt (c :: rest) with
    | some lc => some lc
    | none => findLineColHint rest

/-- The lines of a document, split at newline characters (CodeMirror's line
model: a document always has at least one line). -/
def splitNl : List Char → List (List Char)
  | [] => [[]]
  | c :: rest =>
    if c = '\n' then [] :: splitNl rest
    else
      match splitNl rest with
      | [] => [[c]]
      | l :: ls => (c :: l) :: ls

/-- Start offset of 1-based line `n` within a line list. -/
def lineStartAux (ls : List (List Char)) (n : Nat) (acc : Nat) : Option Nat :=
  match ls, n with
  | _, 0 => none
  | [], _ => none
  | _ :: _, 1 => some acc
  | l :: rest, Nat.succ m => lineStartAux rest m (acc + l.length + 1)

/-- CodeMirror `doc.line(n).from`: lines are 1-based; an out-of-range number
(in particular `n = 0`) raises a `RangeError`, modelled as `none`. -/
def docLineFrom (doc : List Char) (n : Nat) : Option Nat :=
  lineStartAux (splitNl doc) n 0

/-- The loop of `findErrorPosition` (JsonCodeEditor.tsx:106-124), carrying
`depth`, `inString`, `escape` and the current index `i`; `some i` models the
early `return i` when depth would go negative. -/
def fepLoop (depth : Int) (inStr esc : Bool) (i : Nat) : List Char → Option Nat
  | [] => none
  | ch :: rest =>
    if esc then fepLoop depth inStr false (i + 1) rest
    else if ch = '\\' then fepLoop depth inStr true (i + 1) rest
    else if ch = '"' then fepLoop depth (!inStr) esc (i + 1) rest
    else if inStr then fepLoop depth inStr esc (i + 1) rest
    else
      let depth1 := if ch = '{' ∨ ch = '[' then depth + 1 else depth
      if ch = '}' ∨ ch = ']' then
        if depth1 - 1 < 0 then some i
        else fepLoop (depth1 - 1) inStr esc (i + 1) rest
      else fepLoop depth1 inStr esc (i + 1) rest

/-- `findErrorPosition` (JsonCodeEditor.tsx:106-124): the first position where
bracket depth would go negative, else `Math.max(0, doc.length - 1)`. -/
def findErrorPosition (doc : String) : Nat :=
  match fepLoop 0 false false 0 doc.data with
  | some i => i
  | none => doc.data.length - 1

/-- State of the specification's bracket-depth scan. -/
structure ScanState where
  depth : Int
  inStr : Bool
  esc : Bool

/-- One step of the bracket-depth scan: honour a pending backslash escape,
record a backslash, toggle the in-string flag on a double quote, skip
characters inside strings, and adjust depth on brackets outside strings. -/
def scanStep (s : ScanState) (c : Char) : ScanState :=
  if s.esc then { s with esc := false }
  else if c = '\\' then { s with esc := true }
  else if c = '"' then { s with inStr := !s.inStr }
  else if s.inStr then s
  else if c = '{' ∨ c = '[' then { s with depth := s.depth + 1 }
  else if c = '}' ∨ c = ']' then { s with depth := s.depth - 1 }
  else s

/-- The nesting depth would go negative at character `c` in state `s`. -/
def wouldGoNeg (s : ScanState) (c : Char) : Bool :=
  s.esc = false ∧ s.inStr = false ∧ (c = '}' ∨ c = ']') ∧ s.depth - 1 < 0

/-- Index of the first character at which the bracket-depth scan started in
state `s` would make the depth negative. -/
def firstNegIdx (s : ScanState) : List Char → Option Nat
  | [] => none
  | c :: rest =>
    if wouldGoNeg s c then some 0
    else (firstNegIdx (scanStep s c) rest).map (· + 1)

/-- Declarative error position of the bracket-depth scan: first index where
depth would go negative, else `max 0 (length - 1)`. -/
def specFrom (doc : String) : Int :=
  match firstNegIdx ⟨0, false, false⟩ doc.data with
  | some i => (i : Int)
  | none => max 0 ((doc.data.length : Int) - 1)

theorem mapSucc (o : Option Nat) (i : Nat) :
    (o.map (· + 1)).map (· + i) = o.map (· + (i + 1)) := by
  cases o with
  | none => rfl
  | some j =>
    show some (j + 1 + i) = some (j + (i + 1))
    exact congrArg some (by omega)

theorem fepLoop_eq_firstNeg (l : List Char) : ∀ (d : Int) (inS es : Bool) (i : Nat),
    fepLoop d inS es i l = (firstNegIdx ⟨d, inS, es⟩ l).map (· + i) := by
  induction l with
  | nil => intro d inS es i; simp [fepLoop, firstNegIdx]
  | cons c rest ih =>
    intro d inS es i
    cases es with
    | true =>
      have h1 : fepLoop d inS true i (c :: rest) = fepLoop d inS false (i + 1) rest := by
        simp [fepLoop]
      have h2 : firstNegIdx ⟨d, inS, true⟩ (c :: rest)
          = (firstNegIdx ⟨d, inS, false⟩ rest).map (· + 1) := by
        simp [firstNegIdx, wouldGoNeg, scanStep]
      rw [h1, h2, ih, mapSucc]
    | false =>
      by_cases hb : c = '\\'
      · subst hb
        have h1 : fepLoop d inS false i ('\\' :: rest) = fepLoop d inS true (i + 1) rest := by
          simp [fepLoop]
        have h2 : firstNegIdx ⟨d, inS, false⟩ ('\\' :: rest)
            = (firstNegIdx ⟨d, inS, true⟩ rest).map (· + 1) := by
          simp [firstNegIdx, wouldGoNeg, scanStep]
        rw [h1, h2, ih, mapSucc]
      · by_cases hq : c = '"'
        · subst hq
          have h1 : fepLoop d inS false i ('"' :: rest) = fepLoop d (!inS) false (i + 1) rest := by
            simp [fepLoop]
          have h2 : firstNegIdx ⟨d, inS, false⟩ ('"' :: rest)
              = (firstNegIdx ⟨d, !inS, false⟩ rest).map (· + 1) := by
            simp [firstNegIdx, wouldGoNeg, scanStep]
          rw [h1, h2, ih, mapSucc]
        · cases inS with
          | true =>
            have h1 : fepLoop d true false i (c :: rest) = fepLoop d true false (i + 1) rest := by
              simp [fepLoop, hb, hq]
            have h2 : firstNegIdx ⟨d, true, false⟩ (c :: rest)
                = (firstNegIdx ⟨d, true, false⟩ rest).map (· + 1) := by
              simp [firstNegIdx, wouldGoNeg, scanStep, hb, hq]
            rw [h1, h2, ih, mapSucc]
          | false =>
            by_cases ho : c = '{' ∨ c = '['
            · have hc : ¬(c = '}' ∨ c = ']') := by
                rcases ho with rfl | rfl <;> decide
              have h1 : fepLoop d false false i (c :: rest)
                  = fepLoop (d + 1) false false (i + 1) rest := by
                simp [fepLoop, hb, hq, ho, hc]
              have h2 : firstNegIdx ⟨d, false, false⟩ (c :: rest)
                  = (firstNegIdx ⟨d + 1, false, false⟩ rest).map (· + 1) := by
                simp [firstNegIdx, wouldGoNeg, scanStep, hb, hq, ho, hc]
              rw [h1, h2, ih, mapSucc]
            · by_cases hc : c = '}' ∨ c = ']'
              · by_cases hd : d - 1 < 0
                · have h1 : fepLoop d false false i (c :: rest) = some i := by
                    simp [fepLoop, hb, hq, ho, hc, hd]
                  have h2 : firstNegIdx ⟨d, false, false⟩ (c :: rest) = some 0 := by
                    simp [firstNegIdx, wouldGoNeg, hc, hd]
                  rw [h1, h2]
                  simp
                · have h1 : fepLoop d false false i (c :: rest)
                      = fepLoop (d - 1) false false (i + 1) rest := by
                    simp [fepLoop, hb, hq, ho, hc, hd]
                  have h2 : firstNegIdx ⟨d, false, false⟩ (c :: rest)
                      = (firstNegIdx ⟨d - 1, false, false⟩ rest).map (· + 1) := by
                    simp [firstNegIdx, wouldGoNeg, scanStep, hb, hq, ho, hc, hd]
                  rw [h1, h2, ih, mapSucc]
              · have h1 : fepLoop d false false i (c :: rest)
                    = fepLoop d false false (i + 1) rest := by
                  simp [fepLoop, hb, hq, ho, hc]
                have h2 : firstNegIdx ⟨d, false, false⟩ (c :: rest)
                    = (firstNegIdx ⟨d, false, false⟩ rest).map (· + 1) := by
                  simp [firstNegIdx, wouldGoNeg, scanStep, hb, hq, ho, hc]
                rw [h1, h2, ih, mapSucc]

theorem splitNl_ne_nil (l : List Char) : splitNl l ≠ [] := by
  induction l with
  | nil => simp [splitNl]
  | cons c rest ih =>
    by_cases h : c = '\n'
    · simp [splitNl, h]
    · simp only [splitNl, h, if_false]
      cases hs : splitNl rest <;> simp

theorem splitNl_total (l : List Char) :
    ((splitNl l).map List.length).sum + (splitNl l).length = l.length + 1 := by
  induction l with
  | nil => simp [splitNl]
  | cons c rest ih =>
    by_cases h : c = '\n'
    · simp only [splitNl, h, if_true, List.map_cons, List.length_cons, List.sum_cons,
        List.length_nil]
      omega
    · simp only [splitNl, h, if_false]
      cases hs : splitNl rest with
      | nil => exact absurd hs (splitNl_ne_nil rest)
      | cons a as =>
        rw [hs] at ih
        simp only [List.map_cons, List.sum_cons, List.length_cons] at ih ⊢
        omega

theorem lineStartAux_isSome (ls : List (List Char)) : ∀ (n acc : Nat), 1 ≤ n →
    n ≤ ls.length → ∃ lf, lineStartAux ls n acc = some lf := by
  induction ls with
  | nil =>
    intro n acc h1 h2
    simp only [List.length_nil] at h2
    omega
  | cons l rest ih =>
    intro n acc h1 h2
    match n, h1 with
    | 1, _ => exact ⟨acc, rfl⟩
    | Nat.succ (Nat.succ m), _ =>
      simp only [List.length_cons] at h2
      exact ih (m + 1) (acc + l.length + 1) (by omega) (by omega)

theorem lineStartAux_le (ls : List (List Char)) : ∀ (n acc lf : Nat),
    lineStartAux ls n acc = some lf →
    lf + 1 ≤ acc + (ls.map List.length).sum + ls.length := by
  induction ls with
  | nil => intro n acc lf h; cases n <;> simp [lineStartAux] at h
  | cons l rest ih =>
    intro n acc lf h
    match n with
    | 0 => simp [lineStartAux] at h
    | 1 =>
      simp only [lineStartAux, Option.some_inj] at h
      subst h
      simp only [List.map_cons, List.sum_cons, List.length_cons]
      omega
    | Nat.succ (Nat.succ m) =>
      have := ih (m + 1) (acc + l.length + 1) lf h
      simp only [List.map_cons, List.sum_cons, List.length_cons]
      omega

theorem docLineFrom_isSome (doc : List Char) (n : Nat) (h1 : 1 ≤ n)
    (h2 : n ≤ (splitNl doc).length) : ∃ lf, docLineFrom doc n = some lf :=
  lineStartAux_isSome (splitNl doc) n 0 h1 h2

theorem docLineFrom_le (doc : List Char) (n lf : Nat)
    (h : docLineFrom doc n = some lf) : lf ≤ doc.length := by
  have h1 := lineStartAux_le (splitNl doc) n 0 lf h
  have h2 := splitNl_total doc
  omega

/-- The final safety clamps of `jsonLinter` (JsonCodeEditor.tsx:85-87), as a
function of the document length and the branch-computed `from`/`to`. -/
def clampRange (len f0 t0 : Int) : Int × Int :=
  let f1 := if f0 ≥ len then max 0 (len - 1) else f0
  let t1 := if t0 ≤ f1 then min (f1 + 1) len else t0
  let f2 := if f1 < 0 then 0 else f1
  (f2, t1)

theorem clampRange_ok {len f0 t0 : Int} (hlen : 0 ≤ len) (hf : -1 ≤ f0)
    (ht : t0 ≤ len) :
    0 ≤ (clampRange len f0 t0).1 ∧ (clampRange len f0 t0).1 ≤ (clampRange len f0 t0).2 ∧
      (clampRange len f0 t0).2 ≤ len := by
  unfold clampRange
  dsimp only
  split_ifs <;> refine ⟨by omega, by omega, by omega⟩

/-- The range computation of the `catch` block of `jsonLinter`
(JsonCodeEditor.tsx:62-87): choose a branch from the parser message
(`at position` offset, else `line`/`column` location, else the bracket-depth
scan), then apply the final safety clamps.  `none` models an escaping
`RangeError` from CodeMirror's 1-based `doc.line` lookup. -/
def lintRange (doc msg : String) : Option (Int × Int) :=
  let len : Int := doc.data.length
  let pre : Option (Int × Int) :=
    match findPosHint msg.data with
    | some n =>
      let f : Int := min (n : Int) len
      some (f, min (f + 1) len)
    | none =>
      match findLineColHint msg.data with
      | some lc =>
        match docLineFrom doc.data (min lc.1 (splitNl doc.data).length) with
        | some lf =>
          let f : Int := min ((lf : Int) + (lc.2 : Int) - 1) len
          some (f, min (f + 1) len)
        | none => none
      | none =>
        let f : Int := (findErrorPosition doc : Int)
        some (f, min (f + 10) len)
  pre.map (fun ft => clampRange len ft.1 ft.2)

/-- The literal stripped from the front of Firefox-style messages. -/
def parseTagLiteral : List Char := "JSON.parse: ".data

/-- `message.replace` of the leading parser tag (anchored at the start). -/
def stripParseTag (m : List Char) : List Char :=
  if parseTagLiteral.isPrefixOf m then m.drop parseTagLiteral.length else m

/-- The literal of the trailing position suffix pattern. -/
def ijapLiteral : List Char := "in JSON at position ".data

/-- Length of a match of the position-suffix pattern at the head of `l`. -/
def ijapAt (l : List Char) : Option Nat :=
  if ijapLiteral.isPrefixOf l then
    let ds := (l.drop ijapLiteral.length).takeWhile Char.isDigit
    if ds.isEmpty then none else some (ijapLiteral.length + ds.length)
  else none

/-- `message.replace` of the first position-suffix match by the empty string. -/
def removeIJAP : List Char → List Char
  | [] => []
  | c :: rest =>
    match ijapAt (c :: rest) with
    | some n => (c :: rest).drop n
    | none => c :: removeIJAP rest

/-- JS `trim()`: drop whitespace from both ends. -/
def jsTrim (l : List Char) : List Char :=
  ((l.dropWhile isJsSpace).reverse.dropWhile isJsSpace).reverse

/-- The user-facing message of `jsonLinter` (JsonCodeEditor.tsx:89-99):
strip the parser-name tag and the position suffix, trim, and fall back to
`Invalid JSON` when nothing remains. -/
def jsCleanMessage (msg : String) : String :=
  let r := jsTrim (removeIJAP (stripParseTag msg.data))
  if r.isEmpty then "Invalid JSON" else String.mk r

/-- Outcome of the external `JSON.parse` built-in on a document: a parsed
value, or a `SyntaxError` carrying a message. -/
inductive ParseOutcome where
  | ok (value : JSONValue)
  | fail (message : String)

/-- A CodeMirror diagnostic as produced by `jsonLinter`. -/
structure Diagnostic where
  fromPos : Int
  toPos : Int
  severity : String
  message : String
  source : String
deriving DecidableEq

/-- `jsonLinter` (JsonCodeEditor.tsx:52-104): no diagnostic for blank or
parseable documents, otherwise a single diagnostic whose range is computed by
`lintRange` (with `none` modelling an escaping exception). -/
def jsonLinter (doc : String) (outcome : ParseOutcome) : Option (List Diagnostic) :=
  if jsBlank doc then some [] else
  match outcome with
  | .ok _ => some []
  | .fail msg =>
    (lintRange doc msg).map fun ft =>
      [{ fromPos := ft.1, toPos := ft.2, severity := "error",
         message := jsCleanMessage msg, source := "json-lint" }]

/-- The derived `parsed` state of the host page (page.tsx:83-90). -/
def pageParsed (input : String) (outcome : ParseOutcome) : Option JSONValue :=
  if jsBlank input then none else
  match outcome with
  | .ok v => some v
  | .fail _ => none

/-- The derived `error` state of the host page (page.tsx:92-100). -/
def pageError (input : String) (outcome : ParseOutcome) : Option String :=
  if jsBlank input then none else
  match outcome with
  | .ok _ => none
  | .fail m => some m

/-- A parser message is "line-safe" when any `line L column C` location it
reports (in the absence of an absolute offset) has a 1-based line number;
real JSON parsers only emit 1-based line numbers. -/
def msgSafe (msg : String) : Bool :=
  match findPosHint msg.data, findLineColHint msg.data with
  | none, some lc => decide (1 ≤ lc.1)
  | _, _ => true

theorem jsBlank_false_ne_nil {doc : String} (h : jsBlank doc = false) :
    doc.data ≠ [] := by
  intro hnil
  simp [jsBlank, hnil] at h

theorem lintRange_bounds_of_safe (doc msg : String) (hsafe : msgSafe msg = true) :
    ∃ ft, lintRange doc msg = some ft ∧ 0 ≤ ft.1 ∧ ft.1 ≤ ft.2 ∧
      ft.2 ≤ (doc.data.length : Int) := by
  have hlen : (0 : Int) ≤ (doc.data.length : Int) := by positivity
  cases hp : findPosHint msg.data with
  | some n =>
    have heq : lintRange doc msg =
        some (clampRange (doc.data.length : Int) (min (n : Int) (doc.data.length : Int))
          (min (min (n : Int) (doc.data.length : Int) + 1) (doc.data.length : Int))) := by
      simp only [lintRange, hp, Option.map_some]
      rfl
    exact ⟨_, heq, clampRange_ok hlen (by omega) (by omega)⟩
  | none =>
    cases hl : findLineColHint msg.data with
    | some lc =>
      have h1 : 1 ≤ lc.1 := by
        unfold msgSafe at hsafe
        rw [hp, hl] at hsafe
        simpa using hsafe
      have hlines : 1 ≤ (splitNl doc.data).length :=
        List.length_pos.mpr (splitNl_ne_nil doc.data)
      obtain ⟨lf, hlf⟩ := docLineFrom_isSome doc.data
        (min lc.1 (splitNl doc.data).length) (by omega) (by omega)
      have heq : lintRange doc msg =
          some (clampRange (doc.data.length : Int)
            (min ((lf : Int) + (lc.2 : Int) - 1) (doc.data.length : Int))
            (min (min ((lf : Int) + (lc.2 : Int) - 1) (doc.data.length : Int) + 1)
              (doc.data.length : Int))) := by
        simp only [lintRange, hp, hl, hlf, Option.map_some]
        rfl
      exact ⟨_, heq, clampRange_ok hlen (by omega) (by omega)⟩
    | none =>
      have heq : lintRange doc msg =
          some (clampRange (doc.data.length : Int) ((findErrorPosition doc : Nat) : Int)
            (min (((findErrorPosition doc : Nat) : Int) + 10) (doc.data.length : Int))) := by
        simp only [lintRange, hp, hl, Option.map_some]
        rfl
      exact ⟨_, heq, clampRange_ok hlen (by omega) (by omega)⟩

/-- C1 counterexample: a parser message carrying the location `line 0`
(line numbers in CodeMirror are 1-based, so `doc.line(0)` raises a
`RangeError`) makes the error-locating computation throw instead of
returning a range, and `jsonLinter` then yields no diagnostic at all. -/
theorem lintRange_line_zero_raises :
    lintRange "x" "line 0 column 1" = none ∧
      jsonLinter "x" (ParseOutcome.fail "line 0 column 1") = none ∧
      jsBlank "x" = false := by decide

/-- C1 (amended): for every document and every line-safe parser message (any
`line L column C` location has `L ≥ 1`, as real JSON parsers produce), the
error-locating computation returns — without throwing — a range with
`0 ≤ from ≤ to ≤ length(text)`, including for empty text; and on every
non-blank malformed document with such a message `jsonLinter` returns exactly
one diagnostic with an in-bounds range. -/
theorem jsonLinter_single_in_bounds_diagnostic :
    ∀ (doc msg : String), msgSafe msg = true →
      (∃ f t, lintRange doc msg = some (f, t) ∧ 0 ≤ f ∧ f ≤ t ∧
        t ≤ (doc.data.length : Int)) ∧
      (jsBlank doc = false →
        ∃ d, jsonLinter doc (.fail msg) = some [d] ∧ 0 ≤ d.fromPos ∧
          d.fromPos ≤ d.toPos ∧ d.toPos ≤ (doc.data.length : Int)) := by
  intro doc msg hsafe
  obtain ⟨ft, heq, h0, h1, h2⟩ := lintRange_bounds_of_safe doc msg hsafe
  refine ⟨⟨ft.1, ft.2, by rwa [Prod.mk.eta], h0, h1, h2⟩, fun hblank => ?_⟩
  refine ⟨⟨ft.1, ft.2, "error", jsCleanMessage msg, "json-lint"⟩, ?_, h0, h1, h2⟩
  simp only [jsonLinter, hblank, Bool.false_eq_true, if_false, heq, Option.map_some]
  rfl

/-- C1 witness: the amended statement instantiated on the malformed document
consisting of a lone open bracket and a genuine V8-style message with no
offset and no location. -/
theorem jsonLinter_single_in_bounds_diagnostic_witness :
    (∃ f t, lintRange "[" "Unexpected end of JSON input" = some (f, t) ∧ 0 ≤ f ∧
      f ≤ t ∧ t ≤ (("[" : String).data.length : Int)) ∧
    (jsBlank "[" = false →
      ∃ d, jsonLinter "[" (.fail "Unexpected end of JSON input") = some [d] ∧
        0 ≤ d.fromPos ∧ d.fromPos ≤ d.toPos ∧
        d.toPos ≤ (("[" : String).data.length : Int)) :=
  jsonLinter_single_in_bounds_diagnostic "[" "Unexpected end of JSON input" (by decide)

theorem firstNegIdx_lt (l : List Char) : ∀ (s : ScanState) (j : Nat),
    firstNegIdx s l = some j → j < l.length := by
  induction l with
  | nil => intro s j h; simp [firstNegIdx] at h
  | cons c rest ih =>
    intro s j h
    simp only [firstNegIdx] at h
    split at h
    · simp only [Option.some_inj] at h
      subst h
      simp
    · cases hr : firstNegIdx (scanStep s c) rest with
      | none => rw [hr] at h; simp at h
      | some k =>
        rw [hr] at h
        have hj : k + 1 = j := Option.some.inj h
        have := ih (scanStep s c) k hr
        simp only [List.length_cons]
        omega

theorem findErrorPosition_eq_specFrom (doc : String) :
    ((findErrorPosition doc : Nat) : Int) = specFrom doc := by
  unfold findErrorPosition specFrom
  rw [fepLoop_eq_firstNeg]
  cases firstNegIdx ⟨0, false, false⟩ doc.data with
  | none =>
    show ((doc.data.length - 1 : Nat) : Int) = max 0 ((doc.data.length : Int) - 1)
    omega
  | some j =>
    show ((j + 0 : Nat) : Int) = (j : Int)
    omega

theorem findErrorPosition_lt (doc : String) (hne : doc.data ≠ []) :
    findErrorPosition doc < doc.data.length := by
  have hlen : 1 ≤ doc.data.length := List.length_pos.mpr hne
  unfold findErrorPosition
  rw [fepLoop_eq_firstNeg]
  cases hr : firstNegIdx ⟨0, false, false⟩ doc.data with
  | none =>
    show doc.data.length - 1 < doc.data.length
    omega
  | some j =>
    have := firstNegIdx_lt doc.data ⟨0, false, false⟩ j hr
    show j + 0 < doc.data.length
    omega

/-- C5: when the parser message carries neither an `at position` offset nor a
`line`/`column` location, the diagnostic of `jsonLinter` on a non-blank
document covers exactly the range computed by the bracket-depth scan: `from`
is the first index at which nesting depth would go negative (`firstNegIdx`,
tracking double-quoted strings with backslash escapes and adjusting depth on
brackets outside strings), or `max 0 (length - 1)` if no such index exists,
and `to = min (from + 10) (length)`. -/
theorem jsonLinter_fallback_bracket_scan :
    ∀ (doc msg : String), jsBlank doc = false →
      findPosHint msg.data = none → findLineColHint msg.data = none →
      jsonLinter doc (.fail msg) =
        some [⟨specFrom doc, min (specFrom doc + 10) ((doc.data.length : Nat) : Int),
          "error", jsCleanMessage msg, "json-lint"⟩] := by
  intro doc msg hblank hp hl
  have hne : doc.data ≠ [] := jsBlank_false_ne_nil hblank
  have hlen : 1 ≤ doc.data.length := List.length_pos.mpr hne
  have hfep : findErrorPosition doc < doc.data.length := findErrorPosition_lt doc hne
  have hspec : ((findErrorPosition doc : Nat) : Int) = specFrom doc :=
    findErrorPosition_eq_specFrom doc
  have hclamp : clampRange (doc.data.length : Int) ((findErrorPosition doc : Nat) : Int)
      (min (((findErrorPosition doc : Nat) : Int) + 10) (doc.data.length : Int)) =
      (((findErrorPosition doc : Nat) : Int),
        min (((findErrorPosition doc : Nat) : Int) + 10) (doc.data.length : Int)) := by
    unfold clampRange
    dsimp only
    split_ifs <;> first | rfl | omega
  have hlr : lintRange doc msg =
      some (clampRange (doc.data.length : Int) ((findErrorPosition doc : Nat) : Int)
        (min (((findErrorPosition doc : Nat) : Int) + 10) (doc.data.length : Int))) := by
    simp only [lintRange, hp, hl]
    rfl
  rw [hclamp] at hlr
  rw [← hspec]
  simp only [jsonLinter, hblank, Bool.false_eq_true, if_false, hlr]
  rfl

/-- C5 witness: the fallback characterisation instantiated on the malformed
document `"]"` and a message with no offset and no location. -/
theorem jsonLinter_fallback_bracket_scan_witness :
    jsonLinter "]" (.fail "Unexpected token") =
      some [⟨specFrom "]", min (specFrom "]" + 10) ((("]" : String).data.length : Int)),
        "error", jsCleanMessage "Unexpected token", "json-lint"⟩] :=
  jsonLinter_fallback_bracket_scan "]" "Unexpected token" (by decide) (by decide) (by decide)

/-- C6: on empty or whitespace-only text the linter produces no diagnostic and
the host page derives neither a parsed value nor an error message — a third
state distinct from parse success (a value) and parse failure (a diagnostic
and an error message). -/
theorem blank_input_is_third_state :
    ∀ (input : String) (outcome : ParseOutcome), jsBlank input = true →
      jsonLinter input outcome = some [] ∧ pageParsed input outcome = none ∧
        pageError input outcome = none := by
  intro input outcome h
  refine ⟨?_, ?_, ?_⟩ <;> simp [jsonLinter, pageParsed, pageError, h]

/-- C6 witness: the third state on the whitespace document, for both a failed
and a successful parse oracle. -/
theorem blank_input_is_third_state_witness :
    (jsonLinter " " (.fail "Unexpected end of JSON input") = some [] ∧
      pageParsed " " (.fail "Unexpected end of JSON input") = none ∧
      pageError " " (.fail "Unexpected end of JSON input") = none) ∧
    (jsonLinter "" (.ok .null) = some [] ∧ pageParsed "" (.ok .null) = none ∧
      pageError "" (.ok .null) = none) :=
  ⟨blank_input_is_third_state " " (.fail "Unexpected end of JSON input") (by decide),
    blank_input_is_third_state "" (.ok .null) (by decide)⟩

/-- Reversed text of the current line strictly before the cursor:
`line.text.slice(0, pos - line.from)` reversed (CodeMirror lines are the
newline-separated segments of the document). -/
def rLineBefore (doc : List Char) (pos : Nat) : List Char :=
  (doc.take pos).reverse.takeWhile (fun c => ¬c = '\n')

/-- `doc.sliceString(Math.max(0, pos - 1), pos)`: the character before the
cursor, `none` at the document start (cursor positions lie within the
document). -/
def charBefore (doc : List Char) (pos : Nat) : Option Char :=
  (doc.take pos).getLast?

/-- The explicit trigger characters of the completion source. -/
def isTriggerChar (c : Char) : Bool :=
  c = ':' ∨ c = '{' ∨ c = ',' ∨ c = '['

/-- Head-of-list test used by the reversed-line regex tests. -/
def startsWithColon : List Char → Bool
  | ':' :: _ => true
  | _ => false

/-- Test of the colon-typing pattern (a colon, optional whitespace, then one
or more word characters, anchored at the line end) on the reversed line
prefix `r`: the trailing word run must be non-empty and, after it and any
whitespace, a colon must follow.  Word characters, whitespace and `:` are
pairwise disjoint, so the greedy maximal runs are the only candidate match. -/
def reColonTyping (r : List Char) : Bool :=
  !(r.takeWhile isWordChar).isEmpty &&
    startsWithColon ((r.dropWhile isWordChar).dropWhile isJsSpace)

/-- Test of the after-colon pattern (a colon, optional whitespace, an optional
partial word, anchored at the line end) on the reversed line prefix. -/
def reColonValue (r : List Char) : Bool :=
  startsWithColon ((r.dropWhile isWordChar).dropWhile isJsSpace)

/-- Test of the key-context pattern (an open brace or comma followed only by
whitespace at the line end) on the reversed line prefix. -/
def reKeyContext (r : List Char) : Bool :=
  match r.dropWhile isJsSpace with
  | '{' :: _ => true
  | ',' :: _ => true
  | _ => false

/-- Test of the blank-line pattern (whitespace only before the cursor). -/
def reBlankLine (r : List Char) : Bool :=
  r.all isJsSpace

/-- Test of the open-bracket pattern (a bracket followed only by whitespace
at the line end) on the reversed line prefix. -/
def reOpenBracket (r : List Char) : Bool :=
  match r.dropWhile isJsSpace with
  | '[' :: _ => true
  | _ => false

/-- The loop of `isInsideString` (JsonCodeEditor.tsx:211-219): toggle on each
double quote whose predecessor is not a backslash (`prev = none` models
`i === 0`). -/
def insideStrFold (inString : Bool) (prev : Option Char) : List Char → Bool
  | [] => inString
  | c :: rest =>
    let next := if c = '"' ∧ (prev = none ∨ ¬prev = some '\\') then !inString else inString
    insideStrFold next (some c) rest

/-- `isInsideString(doc, pos)`: parity of unescaped double quotes strictly
before the cursor. -/
def isInsideString (doc : List Char) (pos : Nat) : Bool :=
  insideStrFold false none (doc.take pos)

/-- Number of unescaped double quotes (a quote not preceded by a backslash)
in a character list, given the character preceding it. -/
def countUnescQuotes (prev : Option Char) : List Char → Nat
  | [] => 0
  | c :: rest =>
    (if c = '"' ∧ (prev = none ∨ ¬prev = some '\\') then 1 else 0) +
      countUnescQuotes (some c) rest

/-- Try to match the key pattern (a double quote, a run of characters that are
neither quotes nor backslashes, a closing quote, optional whitespace, and a
colon) at the head of `l`; returns the captured key and the match length.
The character classes are disjoint from the required followers, so the greedy
maximal runs are the only candidates, as for a backtracking regex engine. -/
def keyMatchAt (l : List Char) : Option (String × Nat) :=
  match l with
  | '"' :: rest =>
    match rest.drop (rest.takeWhile (fun c => ¬(c = '"' ∨ c = '\\'))).length with
    | '"' :: rest2 =>
      match rest2.drop (rest2.takeWhile isJsSpace).length with
      | ':' :: _ =>
        some (String.mk (rest.takeWhile (fun c => ¬(c = '"' ∨ c = '\\'))),
          (rest.takeWhile (fun c => ¬(c = '"' ∨ c = '\\'))).length +
            (rest2.takeWhile isJsSpace).length + 3)
      | _ => none
    | _ => none
  | _ => none

/-- All keys matched by the global key-pattern scan, in scan order, with the
regex engine's `lastIndex` semantics: after a match resume at its end, after
a failed position advance by one.  `fuel` bounds the number of iterations;
every iteration consumes at least one character, so `l.length` suffices. -/
def rawScanF : Nat → List Char → List String
  | 0, _ => []
  | fuel + 1, l =>
    match l with
    | [] => []
    | c :: rest =>
      match keyMatchAt (c :: rest) with
      | some kn => kn.1 :: rawScanF fuel ((c :: rest).drop kn.2)
      | none => rawScanF fuel rest

/-- The raw (undeduplicated) key occurrence list of the document. -/
def rawScan (l : List Char) : List String :=
  rawScanF l.length l

/-- The loop of `extractExistingKeys` (JsonCodeEditor.tsx:221-234): the same
scan, keeping a `seen` set and pushing each key on first sight. -/
def extractLoopF (fuel : Nat) (seen : List String) (l : List Char) : List String :=
  match fuel with
  | 0 => []
  | fuel + 1 =>
    match l with
    | [] => []
    | c :: rest =>
      match keyMatchAt (c :: rest) with
      | some kn =>
        if kn.1 ∈ seen then extractLoopF fuel seen ((c :: rest).drop kn.2)
        else kn.1 :: extractLoopF fuel (kn.1 :: seen) ((c :: rest).drop kn.2)
      | none => extractLoopF fuel seen rest

/-- `extractExistingKeys(doc)`: first-seen-first, deduplicated keys. -/
def extractExistingKeys (doc : List Char) : List String :=
  extractLoopF doc.length [] doc

/-- First-occurrence deduplication: keep an element iff it has not been seen
before (the specification of the `seen`-set filtering). -/
def dedupFirst (seen : List String) : List String → List String
  | [] => []
  | k :: ks => if k ∈ seen then dedupFirst seen ks else k :: dedupFirst (k :: seen) ks

/-- A completion option; `kind` is the CodeMirror `type` field, `apply` the
optional insertion text, `boost` the optional ranking boost. -/
structure CompletionOption where
  label : String
  kind : String
  detail : String
  apply : Option String
  boost : Option Int
deriving DecidableEq

/-- The value-literal options of the after-colon branch
(JsonCodeEditor.tsx:163-171). -/
def colonValueOptions : List CompletionOption :=
  [⟨"true", "keyword", "Boolean", none, none⟩,
   ⟨"false", "keyword", "Boolean", none, none⟩,
   ⟨"null", "keyword", "Null", none, none⟩,
   ⟨"\"\"", "text", "String", some "\"\"", none⟩,
   ⟨"0", "constant", "Number", none, none⟩,
   ⟨"{}", "type", "Object", some "{}", none⟩,
   ⟨"[]", "type", "Array", some "[]", none⟩]

/-- The value-literal options of the open-bracket branch
(JsonCodeEditor.tsx:196-204). -/
def bracketValueOptions : List CompletionOption :=
  [⟨"\"\"", "text", "String", some "\"\"", none⟩,
   ⟨"true", "keyword", "Boolean", none, none⟩,
   ⟨"false", "keyword", "Boolean", none, none⟩,
   ⟨"null", "keyword", "Null", none, none⟩,
   ⟨"{}", "type", "Object", some "{}", none⟩,
   ⟨"[]", "type", "Array", some "[]", none⟩]

/-- A key `k` rendered as a quoted label. -/
def quoteWrap (k : String) : String := "\"" ++ k ++ "\""

/-- `existingKeys.map((key, i) => ...)` of the key branch
(JsonCodeEditor.tsx:183-189), carrying the list length and current index:
`boost = existingKeys.length - i`. -/
def keyOptionsGo (total i : Nat) : List String → List CompletionOption
  | [] => []
  | k :: rest =>
    ⟨quoteWrap k, "property", "Key", some (quoteWrap k ++ ": "),
      some ((total : Int) - (i : Int))⟩ :: keyOptionsGo total (i + 1) rest

/-- The options of the key branch for a key list. -/
def keyOptions (keys : List String) : List CompletionOption :=
  keyOptionsGo keys.length 0 keys

/-- A completion result: insertion anchor, the optional `filter` flag, and
the option list. -/
structure CompletionResult where
  start : Nat
  filterFlag : Option Bool
  options : List CompletionOption
deriving DecidableEq

/-- The trigger gate of `jsonCompletionSource` (JsonCodeEditor.tsx:131-145):
explicit invocation, a trigger character right before the cursor, or
colon-plus-word typing on the current line. -/
def gatePasses (doc : List Char) (pos : Nat) (explicitInvoke : Bool) : Bool :=
  explicitInvoke ||
    (match charBefore doc pos with
     | some c => isTriggerChar c
     | none => false) ||
    reColonTyping (rLineBefore doc pos)

/-- `jsonCompletionSource` (JsonCodeEditor.tsx:127-209): after the trigger
gate and the inside-string gate, try the after-colon branch, the key branch
(which yields nothing when the document has no keys), then the open-bracket
branch.  The after-colon anchor is the start of the partially typed word
(`matchBefore` of a word run; the null-match case also yields `pos`). -/
def jsonCompletionSource (doc : List Char) (pos : Nat) (explicitInvoke : Bool) :
    Option CompletionResult :=
  if !gatePasses doc pos explicitInvoke then none
  else if isInsideString doc pos then none
  else
    let r := rLineBefore doc pos
    if reColonValue r then
      some ⟨pos - (r.takeWhile isWordChar).length, some true, colonValueOptions⟩
    else if reKeyContext r || reBlankLine r then
      let existingKeys := extractExistingKeys doc
      if existingKeys.isEmpty then none
      else some ⟨pos, none, keyOptions existingKeys⟩
    else if reOpenBracket r then
      some ⟨pos, none, bracketValueOptions⟩
    else none

theorem insideStrFold_parity (l : List Char) : ∀ (b : Bool) (prev : Option Char),
    insideStrFold b prev l = (b ^^ decide (countUnescQuotes prev l % 2 = 1)) := by
  induction l with
  | nil => intro b prev; simp [insideStrFold, countUnescQuotes]
  | cons c rest ih =>
    intro b prev
    by_cases hc : c = '"' ∧ (prev = none ∨ ¬prev = some '\\')
    · simp only [insideStrFold, countUnescQuotes, if_pos hc, ih]
      rcases Nat.mod_two_eq_zero_or_one (countUnescQuotes (some c) rest) with h | h <;>
        simp [h, Nat.add_mod]
    · simp only [insideStrFold, countUnescQuotes, if_neg hc, ih]
      simp

/-- C8: whenever the number of unescaped double quotes strictly before the
cursor is odd (the cursor sits inside an unterminated string literal), the
completion source returns no result — for every document, cursor position,
trigger-character history and invocation mode. -/
theorem completion_none_inside_string :
    ∀ (doc : List Char) (pos : Nat) (explicitInvoke : Bool),
      countUnescQuotes none (doc.take pos) % 2 = 1 →
      jsonCompletionSource doc pos explicitInvoke = none := by
  intro doc pos ex h
  have hin : isInsideString doc pos = true := by
    unfold isInsideString
    rw [insideStrFold_parity]
    simp [h]
  cases hg : gatePasses doc pos ex
  · simp [jsonCompletionSource, hg]
  · simp [jsonCompletionSource, hg, hin]

/-- C8 witness: inside the open string of the document consisting of a quote
and `hel`, even an explicit invocation yields nothing. -/
theorem completion_none_inside_string_witness :
    jsonCompletionSource ("\"hel".data) 2 true = none :=
  completion_none_inside_string ("\"hel".data) 2 true (by decide)

theorem space_not_word {c : Char} (h : isJsSpace c = true) : isWordChar c = false := by
  unfold isJsSpace at h
  unfold isWordChar
  simp only [decide_eq_true_eq] at h
  rcases h with rfl | rfl | rfl | rfl | rfl | rfl <;> decide

theorem reOpenBracket_shape {r : List Char} (h : reOpenBracket r = true) :
    ∃ t, r.dropWhile isJsSpace = '[' :: t := by
  unfold reOpenBracket at h
  split at h
  · rename_i t heq
    exact ⟨t, heq⟩
  · simp at h

theorem dropWhile_word_eq_of_bracket {r : List Char} (h : reOpenBracket r = true) :
    r.dropWhile isWordChar = r := by
  obtain ⟨t, ht⟩ := reOpenBracket_shape h
  cases r with
  | nil => rfl
  | cons a s =>
    cases ha : isJsSpace a with
    | true =>
      rw [List.dropWhile_cons, space_not_word ha]
      simp
    | false =>
      simp only [List.dropWhile_cons, ha, Bool.false_eq_true, if_false] at ht
      injection ht with h1 h2
      subst h1
      rw [List.dropWhile_cons, show isWordChar '[' = false by decide]
      simp

theorem bracket_branch_selected {r : List Char} (h : reOpenBracket r = true) :
    reColonValue r = false ∧ reKeyContext r = false ∧ reBlankLine r = false := by
  obtain ⟨t, ht⟩ := reOpenBracket_shape h
  refine ⟨?_, ?_, ?_⟩
  · unfold reColonValue
    rw [dropWhile_word_eq_of_bracket h, ht]
    rfl
  · unfold reKeyContext
    rw [ht]
    rfl
  · cases hb : reBlankLine r with
    | false => rfl
    | true =>
      exfalso
      unfold reBlankLine at hb
      have hnil : r.dropWhile isJsSpace = [] := by
        rw [List.dropWhile_eq_nil_iff]
        intro x hx
        exact (List.all_eq_true.mp hb) x hx
      rw [hnil] at ht
      simp at ht

/-- C7 counterexample: right after an open bracket the completion source
offers six value literals; the option `0` that the after-colon branch offers
is absent, so the two branches do not offer the same value-literal set. -/
theorem bracket_branch_lacks_zero_option :
    jsonCompletionSource ("[".data) 1 false = some ⟨1, none, bracketValueOptions⟩ ∧
    (∀ o ∈ bracketValueOptions, o.label ≠ "0") ∧
    (∃ o ∈ colonValueOptions, o.label = "0") := by decide

/-- C7 (amended): when the line before the cursor ends with an open bracket
followed only by optional whitespace (and the trigger and string-context
gates pass), the completion source offers, anchored at the cursor, exactly
the value literals empty string, `true`, `false`, `null`, empty object and
empty array — the after-colon value-literal set minus the number literal
`0`, with the empty string listed first. -/
theorem completion_after_open_bracket :
    ∀ (doc : List Char) (pos : Nat) (explicitInvoke : Bool),
      gatePasses doc pos explicitInvoke = true →
      isInsideString doc pos = false →
      reOpenBracket (rLineBefore doc pos) = true →
      jsonCompletionSource doc pos explicitInvoke =
        some ⟨pos, none, bracketValueOptions⟩ ∧
      bracketValueOptions.map (·.label) = ["\"\"", "true", "false", "null", "{}", "[]"] ∧
      (∀ o ∈ bracketValueOptions, o.label ∈ colonValueOptions.map (·.label) ∧
        o.label ≠ "0") := by
  intro doc pos ex hg hin hbr
  obtain ⟨hcv, hkc, hbl⟩ := bracket_branch_selected hbr
  refine ⟨?_, by decide, by decide⟩
  simp [jsonCompletionSource, hg, hin, hcv, hkc, hbl, hbr]

/-- C7 witness: the amended statement on the one-character document `[` with
the cursor after the bracket. -/
theorem completion_after_open_bracket_witness :
    jsonCompletionSource ("[".data) 1 true = some ⟨1, none, bracketValueOptions⟩ :=
  (completion_after_open_bracket ("[".data) 1 true (by decide) (by decide) (by decide)).1

theorem keyMatchAt_pos : ∀ (l : List Char) (k : String) (n : Nat),
    keyMatchAt l = some (k, n) → 1 ≤ n ∧ n ≤ l.length := by
  intro l k n h
  unfold keyMatchAt at h
  split at h
  · rename_i rest
    split at h
    · rename_i rest2 heq2
      split at h
      · rename_i tail heq3
        have hkn := Option.some.inj h
        have hn : n = (rest.takeWhile (fun c => ¬(c = '"' ∨ c = '\\'))).length +
            (rest2.takeWhile isJsSpace).length + 3 := (congrArg Prod.snd hkn).symm
        have h2 : (rest.drop (rest.takeWhile
            (fun c => ¬(c = '"' ∨ c = '\\'))).length).length = rest.length -
            (rest.takeWhile (fun c => ¬(c = '"' ∨ c = '\\'))).length :=
          List.length_drop _ _
        have h4 : ('"' :: rest2).length = (rest.drop (rest.takeWhile
            (fun c => ¬(c = '"' ∨ c = '\\'))).length).length := by rw [heq2]
        have h5 : (rest2.drop (rest2.takeWhile isJsSpace).length).length
            = (':' :: tail).length := by rw [heq3]
        have h6 : (rest2.drop (rest2.takeWhile isJsSpace).length).length
            = rest2.length - (rest2.takeWhile isJsSpace).length := List.length_drop _ _
        have h3 : (rest2.takeWhile isJsSpace).length ≤ rest2.length :=
          (List.takeWhile_sublist _).length_le
        simp only [List.length_cons] at h4 h5 ⊢
        omega
      · exact absurd h (by simp)
    · exact absurd h (by simp)
  · exact absurd h (by simp)

theorem keyMatchAt_clean : ∀ (l : List Char) (k : String) (n : Nat),
    keyMatchAt l = some (k, n) → ∀ c ∈ k.data, ¬(c = '"' ∨ c = '\\') := by
  intro l k n h c hc
  unfold keyMatchAt at h
  split at h
  · rename_i rest
    split at h
    · split at h
      · have hkn := Option.some.inj h
        have hk : String.mk (rest.takeWhile (fun c => ¬(c = '"' ∨ c = '\\'))) = k :=
          congrArg Prod.fst hkn
        rw [← hk] at hc
        have hp := List.mem_takeWhile_imp
          (show c ∈ rest.takeWhile (fun c => ¬(c = '"' ∨ c = '\\')) from hc)
        exact of_decide_eq_true hp
      · exact absurd h (by simp)
    · exact absurd h (by simp)
  · exact absurd h (by simp)

theorem rawScanF_nil : ∀ fuel : Nat, rawScanF fuel [] = [] := by
  intro fuel
  cases fuel <;> rfl

theorem extractLoopF_nil : ∀ (fuel : Nat) (seen : List String),
    extractLoopF fuel seen [] = [] := by
  intro fuel seen
  cases fuel <;> rfl

/-- The fuel bound of the scans is inessential: any fuel at least the number
of remaining characters yields the same result, since every iteration
consumes at least one character. -/
theorem rawScanF_fuel_stable : ∀ (f1 : Nat) (l : List Char) (f2 : Nat),
    l.length ≤ f1 → l.length ≤ f2 → rawScanF f1 l = rawScanF f2 l := by
  intro f1
  induction f1 with
  | zero =>
    intro l f2 h1 _
    have : l = [] := List.length_eq_zero.mp (by omega)
    subst this
    rw [rawScanF_nil, rawScanF_nil]
  | succ m ih =>
    intro l f2 h1 h2
    cases l with
    | nil => rw [rawScanF_nil, rawScanF_nil]
    | cons c rest =>
      cases f2 with
      | zero => simp at h2
      | succ m2 =>
        simp only [rawScanF]
        cases hk : keyMatchAt (c :: rest) with
        | none =>
          simp only [List.length_cons] at h1 h2
          show rawScanF m rest = rawScanF m2 rest
          exact ih rest m2 (by omega) (by omega)
        | some kn =>
          obtain ⟨hp1, hp2⟩ := keyMatchAt_pos (c :: rest) kn.1 kn.2 (by rw [hk])
          have hd : ((c :: rest).drop kn.2).length = (c :: rest).length - kn.2 :=
            List.length_drop _ _
          simp only [List.length_cons] at h1 h2 hp2 hd
          show kn.1 :: rawScanF m ((c :: rest).drop kn.2)
            = kn.1 :: rawScanF m2 ((c :: rest).drop kn.2)
          rw [ih ((c :: rest).drop kn.2) m2 (by omega) (by omega)]

theorem extractLoopF_fuel_stable : ∀ (f1 : Nat) (l : List Char) (f2 : Nat)
    (seen : List String), l.length ≤ f1 → l.length ≤ f2 →
    extractLoopF f1 seen l = extractLoopF f2 seen l := by
  intro f1
  induction f1 with
  | zero =>
    intro l f2 seen h1 _
    have : l = [] := List.length_eq_zero.mp (by omega)
    subst this
    rw [extractLoopF_nil, extractLoopF_nil]
  | succ m ih =>
    intro l f2 seen h1 h2
    cases l with
    | nil => rw [extractLoopF_nil, extractLoopF_nil]
    | cons c rest =>
      cases f2 with
      | zero => simp at h2
      | succ m2 =>
        simp only [extractLoopF]
        cases hk : keyMatchAt (c :: rest) with
        | none =>
          simp only [List.length_cons] at h1 h2
          show extractLoopF m seen rest = extractLoopF m2 seen rest
          exact ih rest m2 seen (by omega) (by omega)
        | some kn =>
          obtain ⟨hp1, hp2⟩ := keyMatchAt_pos (c :: rest) kn.1 kn.2 (by rw [hk])
          have hd : ((c :: rest).drop kn.2).length = (c :: rest).length - kn.2 :=
            List.length_drop _ _
          simp only [List.length_cons] at h1 h2 hp2 hd
          show (if kn.1 ∈ seen then extractLoopF m seen ((c :: rest).drop kn.2)
              else kn.1 :: extractLoopF m (kn.1 :: seen) ((c :: rest).drop kn.2))
            = (if kn.1 ∈ seen then extractLoopF m2 seen ((c :: rest).drop kn.2)
              else kn.1 :: extractLoopF m2 (kn.1 :: seen) ((c :: rest).drop kn.2))
          rw [ih ((c :: rest).drop kn.2) m2 seen (by omega) (by omega),
            ih ((c :: rest).drop kn.2) m2 (kn.1 :: seen) (by omega) (by omega)]

theorem extractLoopF_eq_dedupFirst : ∀ (fuel : Nat) (l : List Char) (seen : List String),
    extractLoopF fuel seen l = dedupFirst seen (rawScanF fuel l) := by
  intro fuel
  induction fuel with
  | zero => intro l seen; rfl
  | succ n ih =>
    intro l seen
    cases l with
    | nil => rfl
    | cons c rest =>
      simp only [extractLoopF, rawScanF]
      cases hk : keyMatchAt (c :: rest) with
      | none =>
        show extractLoopF n seen rest = dedupFirst seen (rawScanF n rest)
        exact ih rest seen
      | some kn =>
        show (if kn.1 ∈ seen then extractLoopF n seen ((c :: rest).drop kn.2)
            else kn.1 :: extractLoopF n (kn.1 :: seen) ((c :: rest).drop kn.2))
          = dedupFirst seen (kn.1 :: rawScanF n ((c :: rest).drop kn.2))
        simp only [dedupFirst]
        by_cases hmem : kn.1 ∈ seen
        · rw [if_pos hmem, if_pos hmem, ih]
        · rw [if_neg hmem, if_neg hmem, ih]

theorem dedupFirst_not_mem (ks : List String) : ∀ (seen : List String) (k : String),
    k ∈ dedupFirst seen ks → k ∉ seen := by
  induction ks with
  | nil => intro seen k h; simp [dedupFirst] at h
  | cons a ks ih =>
    intro seen k h
    simp only [dedupFirst] at h
    by_cases ha : a ∈ seen
    · rw [if_pos ha] at h
      exact ih seen k h
    · rw [if_neg ha] at h
      rcases List.mem_cons.mp h with rfl | h2
      · exact ha
      · have h3 := ih (a :: seen) k h2
        intro hk
        exact h3 (List.mem_cons_of_mem a hk)

theorem dedupFirst_nodup (ks : List String) : ∀ seen, (dedupFirst seen ks).Nodup := by
  induction ks with
  | nil => intro seen; simp [dedupFirst]
  | cons a ks ih =>
    intro seen
    simp only [dedupFirst]
    by_cases ha : a ∈ seen
    · rw [if_pos ha]
      exact ih seen
    · rw [if_neg ha]
      refine List.nodup_cons.mpr ⟨?_, ih (a :: seen)⟩
      intro hmem
      exact dedupFirst_not_mem ks (a :: seen) a hmem (List.mem_cons_self a seen)

theorem dedupFirst_subset (ks : List String) : ∀ (seen : List String) (k : String),
    k ∈ dedupFirst seen ks → k ∈ ks := by
  induction ks with
  | nil => intro seen k h; simp [dedupFirst] at h
  | cons a ks ih =>
    intro seen k h
    simp only [dedupFirst] at h
    by_cases ha : a ∈ seen
    · rw [if_pos ha] at h
      exact List.mem_cons_of_mem a (ih seen k h)
    · rw [if_neg ha] at h
      rcases List.mem_cons.mp h with rfl | h2
      · exact List.mem_cons_self k ks
      · exact List.mem_cons_of_mem a (ih (a :: seen) k h2)

theorem rawScanF_clean : ∀ (fuel : Nat) (l : List Char) (k : String),
    k ∈ rawScanF fuel l → ∀ c ∈ k.data, ¬(c = '"' ∨ c = '\\') := by
  intro fuel
  induction fuel with
  | zero => intro l k h; simp [rawScanF] at h
  | succ n ih =>
    intro l k h
    cases l with
    | nil => simp [rawScanF] at h
    | cons c0 rest =>
      simp only [rawScanF] at h
      split at h
      · rename_i kn hk
        rcases List.mem_cons.mp h with rfl | h2
        · exact keyMatchAt_clean (c0 :: rest) kn.1 kn.2 (by rw [hk])
        · exact ih _ k h2
      · exact ih rest k h

theorem keyOptionsGo_boost_mem : ∀ (l : List String) (total i : Nat)
    (o : CompletionOption), o ∈ keyOptionsGo total i l →
    ∃ j : Nat, i ≤ j ∧ o.boost = some ((total : Int) - (j : Int)) := by
  intro l
  induction l with
  | nil => intro total i o h; simp [keyOptionsGo] at h
  | cons k rest ih =>
    intro total i o h
    rcases List.mem_cons.mp h with rfl | h2
    · exact ⟨i, le_refl i, rfl⟩
    · obtain ⟨j, hj1, hj2⟩ := ih total (i + 1) o h2
      exact ⟨j, by omega, hj2⟩

theorem keyOptionsGo_boost_pairwise : ∀ (l : List String) (total i : Nat),
    (keyOptionsGo total i l).Pairwise
      (fun a b => ∃ x y : Int, a.boost = some x ∧ b.boost = some y ∧ y < x) := by
  intro l
  induction l with
  | nil => intro total i; simp [keyOptionsGo]
  | cons k rest ih =>
    intro total i
    refine List.pairwise_cons.mpr ⟨?_, ih total (i + 1)⟩
    intro b hb
    obtain ⟨j, hj1, hj2⟩ := keyOptionsGo_boost_mem rest total (i + 1) b hb
    refine ⟨(total : Int) - (i : Int), (total : Int) - (j : Int), rfl, hj2, ?_⟩
    have : (i : Int) < (j : Int) := by exact_mod_cast Nat.lt_of_lt_of_le (Nat.lt_succ_self i) hj1
    omega

/-- C10: `extractExistingKeys` returns a duplicate-free key list equal to the
first-occurrence deduplication of the raw scan-order occurrence list; no
returned key contains a double quote or a backslash (the regex's character
class excludes both, so keys written with escape sequences are never
extracted); and in the key branch each option's boost strictly decreases
with its position, so the first-discovered key ranks highest. -/
theorem extractExistingKeys_invariants :
    ∀ doc : List Char,
      (extractExistingKeys doc).Nodup ∧
      extractExistingKeys doc = dedupFirst [] (rawScan doc) ∧
      (∀ k ∈ extractExistingKeys doc, ∀ c ∈ k.data, c ≠ '"' ∧ c ≠ '\\') ∧
      (∀ keys : List String, (keyOptions keys).Pairwise
        (fun a b => ∃ x y : Int, a.boost = some x ∧ b.boost = some y ∧ y < x)) := by
  intro doc
  have heq : extractExistingKeys doc = dedupFirst [] (rawScan doc) :=
    extractLoopF_eq_dedupFirst doc.length doc []
  refine ⟨?_, heq, ?_, fun keys => keyOptionsGo_boost_pairwise keys keys.length 0⟩
  · rw [heq]
    exact dedupFirst_nodup _ []
  · intro k hk c hc
    rw [heq] at hk
    have hraw := dedupFirst_subset _ [] k hk
    have hcl := rawScanF_clean doc.length doc k hraw c hc
    exact ⟨fun h => hcl (Or.inl h), fun h => hcl (Or.inr h)⟩

/-- C10 witness: on a document declaring keys `a`, `b` and `a` again, the
invariants instantiated concretely (the extracted list is duplicate-free and
the key `a` is clean of quotes and backslashes). -/
theorem extractExistingKeys_invariants_witness :
    (extractExistingKeys ("\"a\": 1, \"b\": 2, \"a\": 3".data)).Nodup ∧
    ('a' ≠ '"' ∧ 'a' ≠ '\\') :=
  ⟨(extractExistingKeys_invariants ("\"a\": 1, \"b\": 2, \"a\": 3".data)).1,
    (extractExistingKeys_invariants ("\"a\": 1, \"b\": 2, \"a\": 3".data)).2.2.1
      "a" (by decide) 'a' (by decide)⟩

end JsonViewer
